import Mathlib

/-!
# KiloCam control page: directory browser, device actions, time sync

A shallow embedding of the script of `src/index_html.h` (and of the device-action
functions of `src/KiloCam_Standalone/index_html.h`).  The page is a record of the
DOM parts the script writes, together with the log of requests it has issued; every
script function is a function on that record, and every `.then` callback is a
separate function that is applied when the response arrives.
-/

namespace KiloCam

/-! ## JavaScript strings -/

/-- JavaScript string value, as the sequence of its code units: each element stands for
one code unit.  The script only concatenates strings, compares them, and looks for
the one-unit string `/`. -/
abbrev JSString := List Char

/-- `s.endsWith(c)` for a search string of one code unit. -/
def endsWith (s : JSString) (c : Char) : Bool :=
  s.getLast? == some c

/-- `s.lastIndexOf(c)` for a search string of one code unit: the index of the last
occurrence, or `-1` when there is none. -/
def lastIndexOf : JSString → Char → Int
  | [], _ => -1
  | x :: xs, c =>
    let r := lastIndexOf xs c
    if 0 ≤ r then r + 1 else if x = c then 0 else -1

/-- `s.substring(start, stop)`: both indices are clamped to `0 .. s.length` and
swapped when out of order. -/
def substring (s : JSString) (start stop : Int) : JSString :=
  let n : Int := s.length
  let a := max 0 (min start n)
  let b := max 0 (min stop n)
  let lo := (min a b).toNat
  let hi := (max a b).toNat
  (s.drop lo).take (hi - lo)

/-- `Array.prototype.sort` inserts one element into an already ordered array: the
element goes in front of the first element it does not compare greater than. -/
def sortInsert {α : Type} (cmp : α → α → Int) (x : α) : List α → List α
  | [] => [x]
  | y :: ys => if cmp x y ≤ 0 then x :: y :: ys else y :: sortInsert cmp x ys

/-- `Array.prototype.sort(cmp)`.  The language standard requires the sort to be stable,
so it is embedded as the stable insertion sort by the comparator. -/
def sort {α : Type} (cmp : α → α → Int) : List α → List α
  | [] => []
  | x :: xs => sortInsert cmp x (sort cmp xs)

/-! ## Data model -/

/-- One element of the JSON array answered by `/list`. -/
structure Entry where
  name : JSString
  size : Nat
  isDir : Bool
deriving DecidableEq, Repr

/-- Response to a `/list` request as `loadDirectory` sees it: the `ok` flag and the
parsed body (`none` when `r.json()` rejects). -/
structure ListResponse where
  ok : Bool
  json : Option (List Entry)
deriving DecidableEq, Repr

/-- The `action` parameter of `/control`. -/
inductive ControlAction where
  | start
  | shutdown
  | light
deriving DecidableEq, Repr

/-- A request handed to `fetch`, with its query parameters decoded. -/
inductive Request where
  /-- The URL `/status`. -/
  | status
  /-- The URL `/set-time?time=..&tz=..`. -/
  | setTime (time tz : Int)
  /-- The URL `/control?action=..`. -/
  | control (action : ControlAction)
  /-- The URL `/capture`. -/
  | capture
  /-- The URL `/list?path=..`. -/
  | list (path : JSString)
  /-- The URL `/delete?path=..`. -/
  | delete (path : JSString)
deriving DecidableEq, Repr

/-- Content of the first cell of a table row. -/
inductive NameCell where
  /-- Bold folder label, for a directory. -/
  | bold (name : JSString)
  /-- Anchor with `href` and label, for a file. -/
  | link (href name : JSString)
deriving DecidableEq, Repr

/-- Content of the size cell of a table row. -/
inductive SizeCell where
  /-- The text `-`. -/
  | dash
  /-- The value of `f.size`. -/
  | bytes (n : Nat)
deriving DecidableEq, Repr

/-- A button of the actions cell, as the script writes it: the function its `onclick`
names and the text the script puts between the quotes of the argument.  What the
browser makes of that text when the button is clicked is `literalValue` below. -/
inductive Button where
  /-- Button `Open`, with `onclick` text `loadDirectory('path')`. -/
  | openDir (path : JSString)
  /-- Button `Down All`, with `onclick` text `downloadAll('path')`. -/
  | downAll (path : JSString)
  /-- Button `Del`, with `onclick` text `deleteItem('path', isDir)`. -/
  | del (path : JSString) (isDir : Bool)
deriving DecidableEq, Repr

/-- One `<tr>` of `#fileTable tbody`. -/
structure Row where
  nameCell : NameCell
  sizeCell : SizeCell
  actionsCell : List Button
deriving DecidableEq, Repr

/-- The `style.display` value of `#backBtn`. -/
inductive Display where
  | none
  | inlineBlock
deriving DecidableEq, Repr

/-- The temporary anchor a download timer creates and clicks. -/
structure Download where
  href : JSString
  download : JSString
deriving DecidableEq, Repr

/-- A timer registered with `setTimeout`: the delay argument in milliseconds and what
its callback does. -/
structure Timer where
  delay : Nat
  callback : Download
deriving DecidableEq, Repr

/-- The host's `Date` object: `getTime()` in milliseconds since the epoch (UTC) and
`getTimezoneOffset()` in minutes (UTC minus local time). -/
structure JSDate where
  getTime : Int
  getTimezoneOffset : Int
deriving DecidableEq, Repr

/-- The page: the global `currentPath`, the DOM parts the script writes, and the
effects it has caused so far (requests, alerts, timers), oldest first. -/
structure Page where
  currentPath : JSString
  currentPathDisplay : JSString
  backBtn : Display
  tbody : List Row
  previewContainer : String
  fetched : List Request
  alerts : List String
  timers : List Timer
deriving DecidableEq, Repr

/-- The page as the HTML declares it, before any script function has run. -/
def initialPage : Page where
  currentPath := ['/']
  currentPathDisplay := ['/']
  backBtn := Display.none
  tbody := []
  previewContainer := ""
  fetched := []
  alerts := []
  timers := []

/-! ## Status, time sync and device actions -/

/-- `fetchStatus()`: issues the `/status` request. -/
def fetchStatus (s : Page) : Page :=
  { s with fetched := s.fetched ++ [Request.status] }

/-- `syncTime()`, reading the host clock `now`. -/
def syncTime (now : JSDate) (s : Page) : Page :=
  let timestamp := Int.fdiv now.getTime 1000
  let tzOffset := now.getTimezoneOffset * -1
  { s with fetched := s.fetched ++ [Request.setTime timestamp tzOffset] }

/-- `startCollection()`; `confirmed` is the operator's answer to `confirm`. -/
def startCollection (confirmed : Bool) (s : Page) : Page :=
  if confirmed then
    { s with fetched := s.fetched ++ [Request.control ControlAction.start] }
  else s

/-- `shutdown()`; `confirmed` is the operator's answer to `confirm`. -/
def shutdown (confirmed : Bool) (s : Page) : Page :=
  if confirmed then
    { s with fetched := s.fetched ++ [Request.control ControlAction.shutdown] }
  else s

/-- `toggleLight()`. -/
def toggleLight (s : Page) : Page :=
  { s with fetched := s.fetched ++ [Request.control ControlAction.light] }

/-- `takePhoto()`. -/
def takePhoto (s : Page) : Page :=
  { s with previewContainer := "Capturing...", fetched := s.fetched ++ [Request.capture] }

/-! ## Directory browser -/

/-- `loadDirectory(path)`, up to the `fetch`. -/
def loadDirectory (path : JSString) (s : Page) : Page :=
  let s := { s with currentPath := path }
  let s := { s with currentPathDisplay := s.currentPath }
  let s := { s with
    backBtn := if s.currentPath = ['/'] ∨ s.currentPath = [] then Display.none
               else Display.inlineBlock }
  { s with fetched := s.fetched ++ [Request.list path] }

/-- The three statements that build the local `fullPath` of an entry called `name`
under the path `base`; they are the same in `loadDirectory` (with `base` the global
`currentPath`) and in the timer callback of `downloadAll` (with `base` its `dirPath`). -/
def fullPath (base name : JSString) : JSString :=
  let fullPath := base
  let fullPath := if !endsWith fullPath '/' then fullPath ++ ['/'] else fullPath
  fullPath ++ name

/-- The comparator `loadDirectory` sorts with. -/
def dirsFirst (a b : Entry) : Int :=
  if a.isDir = b.isDir then 0 else if a.isDir then -1 else 1

/-- The body of `files.forEach` in `loadDirectory`: the row built for entry `f` while
the global is `currentPath`. -/
def renderRow (currentPath : JSString) (f : Entry) : Row :=
  let fullPath := fullPath currentPath f.name
  if f.isDir then
    { nameCell := NameCell.bold f.name
      sizeCell := SizeCell.dash
      actionsCell := [Button.openDir fullPath, Button.downAll fullPath,
                      Button.del fullPath true] }
  else
    let fileUrl := fullPath
    { nameCell := NameCell.link fileUrl f.name
      sizeCell := SizeCell.bytes f.size
      actionsCell := [Button.del fullPath false] }

/-- The `.then` chain of `loadDirectory`, applied when the response `r` arrives.  A
response that is not `ok`, or whose body does not parse, ends in the `catch` handler,
which only logs. -/
def loadDirectoryThen (r : ListResponse) (s : Page) : Page :=
  if !r.ok then s
  else
    match r.json with
    | none => s
    | some files =>
      let s := { s with tbody := [] }
      let files := sort dirsFirst files
      files.foldl (fun s f => { s with tbody := s.tbody ++ [renderRow s.currentPath f] }) s

/-- `goUp()`. -/
def goUp (s : Page) : Page :=
  if s.currentPath = ['/'] ∨ s.currentPath = [] then s
  else
    let s :=
      if endsWith s.currentPath '/' ∧ s.currentPath.length > 1 then
        { s with currentPath := substring s.currentPath 0 (s.currentPath.length - 1) }
      else s
    let lastSlash := lastIndexOf s.currentPath '/'
    let newPath := substring s.currentPath 0 lastSlash
    let newPath := if newPath = [] then ['/'] else newPath
    loadDirectory newPath s

/-- `deleteItem(path, isDir)`, up to the `fetch`; `confirmed` is the operator's answer
to `confirm`.  The flag `isDir` only selects the wording of the prompt. -/
def deleteItem (path : JSString) (_isDir : Bool) (confirmed : Bool) (s : Page) : Page :=
  if confirmed then
    { s with fetched := s.fetched ++ [Request.delete path] }
  else s

/-- The `.then` callback of `deleteItem`, applied when a response with flag `ok`
arrives. -/
def deleteItemThen (ok : Bool) (s : Page) : Page :=
  if ok then loadDirectory s.currentPath s
  else { s with alerts := s.alerts ++ ["Delete Failed"] }

/-- `downloadAll(dirPath)`, up to the `fetch`; `confirmed` is the operator's answer to
`confirm`. -/
def downloadAll (dirPath : JSString) (confirmed : Bool) (s : Page) : Page :=
  if !confirmed then s
  else { s with fetched := s.fetched ++ [Request.list dirPath] }

/-- The callback `downloadAll` passes to `setTimeout` for entry `f`. -/
def downloadCallback (dirPath : JSString) (f : Entry) : Download :=
  let fullPath := fullPath dirPath f.name
  { href := fullPath, download := f.name }

/-- The `files.forEach((f, index) => ..)` of `downloadAll`: the loop state is the
page and the local `count`. -/
def downloadAllLoop (dirPath : JSString) :
    List Entry → Nat → Page × Nat → Page × Nat
  | [], _, acc => acc
  | f :: rest, index, (s, count) =>
    if !f.isDir then
      downloadAllLoop dirPath rest (index + 1)
        ({ s with timers := s.timers ++ [{ delay := index * 500,
                                           callback := downloadCallback dirPath f }] },
         count + 1)
    else downloadAllLoop dirPath rest (index + 1) (s, count)

/-- The `.then` callback of `downloadAll(dirPath)`, applied to the parsed listing. -/
def downloadAllThen (dirPath : JSString) (files : List Entry) (s : Page) : Page :=
  let count := 0
  let (s, count) := downloadAllLoop dirPath files 0 (s, count)
  if count = 0 then { s with alerts := s.alerts ++ ["No files to download."] } else s

/-- `window.onload`. -/
def windowOnload (s : Page) : Page :=
  loadDirectory ['/'] (fetchStatus s)

/-! ## How the browser reads the markup the script writes

The script builds each row as markup text and hands it to `innerHTML`; the paths and
names are put into that text as they are.  The browser reads the text back twice: as
HTML when the row is inserted, and, for an `onclick` attribute, as program text with a
single-quoted literal when the button is clicked. -/

/-- Characters that change how HTML reads a text put into a cell or into a
double-quoted attribute: `<` (60), `&` (38), the double quote (34), NUL (0) and carriage
return (13).  A text without them is read as it stands. -/
def htmlSpecial (c : Char) : Bool :=
  c.toNat = 60 || c.toNat = 38 || c.toNat = 34 || c.toNat = 0 || c.toNat = 13

/-- Characters that do not stand for themselves inside a single-quoted literal: the
single quote (39), the backslash (92) and the line terminators (10, 13, 8232, 8233). -/
def literalSpecial (c : Char) : Bool :=
  c.toNat = 39 || c.toNat = 92 || c.toNat = 10 || c.toNat = 13
    || c.toNat = 8232 || c.toNat = 8233

/-- The value of a hexadecimal digit. -/
def hexDigit (c : Char) : Option Nat :=
  let n := c.toNat
  if 48 ≤ n ∧ n ≤ 57 then some (n - 48)
  else if 97 ≤ n ∧ n ≤ 102 then some (n - 87)
  else if 65 ≤ n ∧ n ≤ 70 then some (n - 55)
  else none

/-- Where the reading of a single-quoted literal stands. -/
inductive LiteralState where
  /-- Between characters. -/
  | chars
  /-- After a backslash. -/
  | escape
  /-- After backslash and `x`. -/
  | hex
  /-- After backslash, `x` and a first digit of value `high`. -/
  | hexLow (high : Nat)
deriving DecidableEq, Repr

/-- The string value of the text between the quotes of a single-quoted literal.  An
ordinary character stands for itself and the escape `\xHH` for the code unit with that
hexadecimal number.  The result is `none` for every other text: one with a quote or a
line terminator, which does not end up as one literal, or with another escape, which
is not embedded here. -/
def literalValue : LiteralState → JSString → Option JSString
  | LiteralState.chars, [] => some []
  | LiteralState.chars, c :: rest =>
    if c.toNat = 92 then literalValue LiteralState.escape rest
    else if literalSpecial c then none
    else (literalValue LiteralState.chars rest).map (fun v => c :: v)
  | LiteralState.escape, c :: rest =>
    if c = 'x' then literalValue LiteralState.hex rest else none
  | LiteralState.hex, c :: rest =>
    match hexDigit c with
    | some high => literalValue (LiteralState.hexLow high) rest
    | none => none
  | LiteralState.hexLow high, c :: rest =>
    match hexDigit c with
    | some low =>
      (literalValue LiteralState.chars rest).map (fun v => Char.ofNat (16 * high + low) :: v)
    | none => none
  | _, [] => none

/-- The text a button carries between the quotes of its `onclick`. -/
def Button.text : Button → JSString
  | Button.openDir path => path
  | Button.downAll path => path
  | Button.del path _ => path

/-- The texts the script puts into the markup of a row: the name, for a file also the
`href`, and the text of every button. -/
def Row.texts (r : Row) : List JSString :=
  (match r.nameCell with
   | NameCell.bold name => [name]
   | NameCell.link href name => [href, name])
    ++ r.actionsCell.map Button.text

/-- The table the browser builds from the markup is the table of rows the script
wrote: no text put into the markup has a character that HTML reads specially. -/
def markupAsWritten (rows : List Row) : Bool :=
  rows.all (fun r => r.texts.all (fun t => !t.any htmlSpecial))

/-! ## The operator and the device -/

/-- What can happen to the page once it is loaded: a click of the operator on a
control of the gallery, or the arrival of a response of the device.  A response may
be applied at any time, so every run of the real page, where a response follows its
request, is among the runs considered. -/
inductive Action where
  /-- Click on `Refresh`: `loadDirectory(currentPath)`. -/
  | refresh
  /-- Click on `Back`: `goUp()`. -/
  | back
  /-- Click on button number `button` of row number `row` of the table, with the
  operator's answer to the `confirm` that may follow. -/
  | click (row button : Nat) (confirmed : Bool)
  /-- The response to a `/list` request of `loadDirectory` arrives. -/
  | listing (r : ListResponse)
  /-- The response to a `/delete` request arrives, with its `ok` flag. -/
  | deleted (ok : Bool)
  /-- The listing requested by `downloadAll(dirPath)` arrives. -/
  | downloadListing (dirPath : JSString) (files : List Entry)
deriving DecidableEq, Repr

/-- The call a button's `onclick` makes: the function named, on the value of the
literal written.  The result is `none` where `literalValue` does not give the value. -/
def press (b : Button) (confirmed : Bool) (s : Page) : Option Page :=
  match b with
  | Button.openDir text =>
    (literalValue LiteralState.chars text).map (fun path => loadDirectory path s)
  | Button.downAll text =>
    (literalValue LiteralState.chars text).map (fun path => downloadAll path confirmed s)
  | Button.del text isDir =>
    (literalValue LiteralState.chars text).map (fun path => deleteItem path isDir confirmed s)

/-- The effect of one action on the page.  The result is `none` where the embedding
does not describe what the browser does: when a rendered table has a text that HTML
reads specially, so that the table built is not the table written, and when a button
is clicked whose literal `literalValue` does not evaluate. -/
def step (s : Page) : Action → Option Page
  | Action.refresh => some (loadDirectory s.currentPath s)
  | Action.back => some (goUp s)
  | Action.click row button confirmed =>
    match s.tbody[row]? with
    | none => some s
    | some r =>
      match r.actionsCell[button]? with
      | none => some s
      | some b => if markupAsWritten s.tbody then press b confirmed s else none
  | Action.listing r =>
    let s := loadDirectoryThen r s
    if markupAsWritten s.tbody then some s else none
  | Action.deleted ok => some (deleteItemThen ok s)
  | Action.downloadListing dirPath files => some (downloadAllThen dirPath files s)

/-- The page after a sequence of actions. -/
def run (s : Page) : List Action → Option Page
  | [] => some s
  | a :: rest =>
    match step s a with
    | some s => run s rest
    | none => none

/-! ## The stand-alone variant of the page

The script of `src/KiloCam_Standalone/index_html.h` has the same device-action and
time-sync functions and no directory browser; its functions are given on the same
record, of which they touch the request log and the preview only. -/

namespace Standalone

/-- `startCollection()` of the stand-alone page. -/
def startCollection (confirmed : Bool) (s : Page) : Page :=
  if confirmed then
    { s with fetched := s.fetched ++ [Request.control ControlAction.start] }
  else s

/-- `shutdown()` of the stand-alone page. -/
def shutdown (confirmed : Bool) (s : Page) : Page :=
  if confirmed then
    { s with fetched := s.fetched ++ [Request.control ControlAction.shutdown] }
  else s

/-- `toggleLight()` of the stand-alone page. -/
def toggleLight (s : Page) : Page :=
  { s with fetched := s.fetched ++ [Request.control ControlAction.light] }

/-- `takePhoto()` of the stand-alone page. -/
def takePhoto (s : Page) : Page :=
  { s with previewContainer := "Capturing...", fetched := s.fetched ++ [Request.capture] }

/-- `syncTime()` of the stand-alone page. -/
def syncTime (now : JSDate) (s : Page) : Page :=
  let timestamp := Int.fdiv now.getTime 1000
  let tzOffset := now.getTimezoneOffset * -1
  { s with fetched := s.fetched ++ [Request.setTime timestamp tzOffset] }

end Standalone

/-! ## Definitions that follow the specification's words -/

/-- Path resolution rule as the specification words it: the parent path, a separator
unless the parent already ends in one, then the child's name. -/
def resolve (p n : JSString) : JSString :=
  if ['/'] <:+ p then p ++ n else p ++ ['/'] ++ n

/-- Normalization of duplicate separators: every run of `/` is collapsed to one. -/
def collapseSeparators : JSString → JSString
  | [] => []
  | [a] => [a]
  | a :: b :: rest =>
    if a = '/' ∧ b = '/' then collapseSeparators (b :: rest)
    else a :: collapseSeparators (b :: rest)

/-- Days from 1970-01-01 to the civil date `y`-`m`-`d` of the proleptic Gregorian
calendar. -/
def daysFromCivil (y m d : Int) : Int :=
  let y := if m ≤ 2 then y - 1 else y
  let era := Int.fdiv y 400
  let yoe := y - era * 400
  let doy := Int.fdiv (153 * (if m > 2 then m - 3 else m + 9) + 2) 5 + d - 1
  let doe := yoe * 365 + Int.fdiv yoe 4 - Int.fdiv yoe 100 + doy
  era * 146097 + doe - 719468

/-- The host clock reading whose local wall-clock time is `y`-`m`-`d` `hh`:`mm`:`ss` in a
zone that is `behind` minutes behind UTC. -/
def hostClockAtLocal (y m d hh mm ss : Int) (behind : Int) : JSDate where
  getTime := (daysFromCivil y m d * 86400 + hh * 3600 + mm * 60 + ss + behind * 60) * 1000
  getTimezoneOffset := behind

/-- A path segment in the sense of the data model: a non-empty name without a
separator. -/
def IsSegment (n : JSString) : Prop :=
  n ≠ [] ∧ '/' ∉ n

instance (n : JSString) : Decidable (IsSegment n) := by
  unfold IsSegment
  infer_instance

/-- The invariant of the navigation state as the specification words it: the path
begins with `/`, and it is exactly `/` or does not end in a separator. -/
def AbsolutePath (p : JSString) : Prop :=
  ['/'] <+: p ∧ (p = ['/'] ∨ ¬ ['/'] <:+ p)

instance (p : JSString) : Decidable (AbsolutePath p) := by
  unfold AbsolutePath
  infer_instance

/-- A name that the markup and a quoted literal carry as it stands: it has no
character that HTML or a single-quoted literal reads specially. -/
def PlainName (n : JSString) : Prop :=
  ∀ c ∈ n, htmlSpecial c = false ∧ literalSpecial c = false

instance (n : JSString) : Decidable (PlainName n) := by
  unfold PlainName
  infer_instance

/-- The listing an action delivers to `loadDirectory`, if it delivers one, has plain
names only and names each of its directories by a path segment. -/
def Action.PlainSegmentNames : Action → Prop
  | Action.listing r =>
      ∀ f ∈ r.json.getD [], r.ok = true →
        PlainName f.name ∧ (f.isDir = true → IsSegment f.name)
  | _ => True

instance (a : Action) : Decidable a.PlainSegmentNames := by
  cases a <;> simp only [Action.PlainSegmentNames] <;> infer_instance

/-! ## Auxiliary definitions for the proofs -/

/-- The path `goUp` hands to `loadDirectory`, as a function of `currentPath` (which it
leaves alone at `/` and at the empty string). -/
def upPath (p : JSString) : JSString :=
  if p = ['/'] ∨ p = [] then p
  else
    let q := if endsWith p '/' ∧ p.length > 1 then substring p 0 (p.length - 1) else p
    let newPath := substring q 0 (lastIndexOf q '/')
    if newPath = [] then ['/'] else newPath

/-- The timers the loop of `downloadAll` registers for `files`, the first of which has
index `index` in the listing. -/
def scheduled (dirPath : JSString) : List Entry → Nat → List Timer
  | [], _ => []
  | f :: rest, index =>
    if f.isDir then scheduled dirPath rest (index + 1)
    else { delay := index * 500, callback := downloadCallback dirPath f }
           :: scheduled dirPath rest (index + 1)

/-- The path with the given segments: `/` for none, otherwise each segment preceded by
a separator. -/
def ofSegments (segs : List JSString) : JSString :=
  if segs = [] then ['/'] else (segs.map (fun n => '/' :: n)).flatten

/-- A path made of path segments only. -/
def Canonical (p : JSString) : Prop :=
  ∃ segs : List JSString, (∀ n ∈ segs, IsSegment n) ∧ p = ofSegments segs

/-- The invariant of the gallery: the current path is plain and made of path segments
only, every text of the table is plain, and the text of every `Open` button is made
of path segments only. -/
def GalleryInv (s : Page) : Prop :=
  Canonical s.currentPath ∧ PlainName s.currentPath
    ∧ ∀ r ∈ s.tbody, (∀ t ∈ r.texts, PlainName t)
        ∧ ∀ path, Button.openDir path ∈ r.actionsCell → Canonical path

/-! ## Basic facts about the string primitives -/

theorem endsWith_iff_suffix (p : JSString) (c : Char) :
    endsWith p c = true ↔ [c] <:+ p := by
  unfold endsWith
  constructor
  · intro h
    have h1 : p.getLast? = some c := by simpa using h
    obtain ⟨ys, rfl⟩ := List.getLast?_eq_some_iff.mp h1
    exact ⟨ys, rfl⟩
  · rintro ⟨ys, rfl⟩
    simp

theorem fullPath_eq_resolve (p n : JSString) : fullPath p n = resolve p n := by
  unfold resolve fullPath
  by_cases h : endsWith p '/' = true
  · have h2 := (endsWith_iff_suffix p '/').mp h
    simp [h, h2]
  · have h2 : ¬ (['/'] <:+ p) := fun hs => h ((endsWith_iff_suffix p '/').mpr hs)
    simp [h, h2]

/-! ## Path resolution -/

/-- C1: the full path built for an entry, in every cell of the row `loadDirectory`
renders for it and in the download `downloadAll` schedules for it, is the parent path
followed by the name, with one separator put between them exactly when the parent
does not already end in one; `images` under `/2024-01-01` gives `/2024-01-01/images`
and not `/2024-01-01images`. -/
theorem path_resolution (p : JSString) (f : Entry) :
    fullPath p f.name = resolve p f.name
      ∧ renderRow p f =
        (if f.isDir then
          { nameCell := NameCell.bold f.name
            sizeCell := SizeCell.dash
            actionsCell := [Button.openDir (resolve p f.name),
                            Button.downAll (resolve p f.name),
                            Button.del (resolve p f.name) true] }
        else
          { nameCell := NameCell.link (resolve p f.name) f.name
            sizeCell := SizeCell.bytes f.size
            actionsCell := [Button.del (resolve p f.name) false] })
      ∧ downloadCallback p f = { href := resolve p f.name, download := f.name }
      ∧ (['/'] <:+ p → resolve p f.name = p ++ f.name)
      ∧ (¬ ['/'] <:+ p → resolve p f.name = p ++ ['/'] ++ f.name)
      ∧ (renderRow "/2024-01-01".toList ⟨"images".toList, 0, true⟩).actionsCell =
          [Button.openDir "/2024-01-01/images".toList,
           Button.downAll "/2024-01-01/images".toList,
           Button.del "/2024-01-01/images".toList true]
      ∧ (downloadCallback "/2024-01-01".toList ⟨"images".toList, 0, false⟩).href =
          "/2024-01-01/images".toList
      ∧ "/2024-01-01/images".toList ≠ "/2024-01-01images".toList := by
  refine ⟨fullPath_eq_resolve p f.name, ?_, ?_, ?_, ?_, by decide, by decide, by decide⟩
  · unfold renderRow
    simp only [fullPath_eq_resolve]
  · unfold downloadCallback
    simp only [fullPath_eq_resolve]
  · intro h
    simp [resolve, h]
  · intro h
    simp [resolve, h]

/-! ## Back control -/

/-- C8: after `loadDirectory(p)` the back control is hidden (`display: none`) if and
only if `p` is `/` or the empty string, and it is shown (`inline-block`) at every other
path. -/
theorem back_control_visibility (p : JSString) (s : Page) :
    ((loadDirectory p s).backBtn = Display.none ↔ (p = ['/'] ∨ p = []))
      ∧ ((loadDirectory p s).backBtn = Display.inlineBlock ↔ ¬ (p = ['/'] ∨ p = [])) := by
  unfold loadDirectory
  by_cases h : p = ['/'] ∨ p = []
  · simp [h]
  · simp [h]

/-! ## Delete outcome -/

/-- C5: a confirmed `deleteItem` issues the delete request and leaves `currentPath`
alone; when the response arrives at page `t`, a successful one issues exactly one
listing request, for the current path of `t`, and a failed one raises the alert
`Delete Failed` and issues no request; `currentPath` is the same afterwards in both
cases. -/
theorem delete_outcome (path : JSString) (isDir : Bool) (s t : Page) :
    (deleteItem path isDir true s).currentPath = s.currentPath
      ∧ (deleteItem path isDir true s).fetched = s.fetched ++ [Request.delete path]
      ∧ (deleteItemThen true t).currentPath = t.currentPath
      ∧ (deleteItemThen true t).fetched = t.fetched ++ [Request.list t.currentPath]
      ∧ (deleteItemThen true t).alerts = t.alerts
      ∧ (deleteItemThen false t).currentPath = t.currentPath
      ∧ (deleteItemThen false t).fetched = t.fetched
      ∧ (deleteItemThen false t).alerts = t.alerts ++ ["Delete Failed"] := by
  simp [deleteItem, deleteItemThen, loadDirectory]

/-! ## Confirmation gating -/

/-- C6: on both pages, `shutdown()` and `startCollection()` with the confirmation
declined leave the page as it was, so they issue no request, while `toggleLight()` and
`takePhoto()` take no operator answer and always issue `/control?action=light` and
`/capture`. -/
theorem confirmation_gating (s : Page) :
    shutdown false s = s
      ∧ startCollection false s = s
      ∧ (toggleLight s).fetched = s.fetched ++ [Request.control ControlAction.light]
      ∧ (takePhoto s).fetched = s.fetched ++ [Request.capture]
      ∧ Standalone.shutdown false s = s
      ∧ Standalone.startCollection false s = s
      ∧ (Standalone.toggleLight s).fetched =
          s.fetched ++ [Request.control ControlAction.light]
      ∧ (Standalone.takePhoto s).fetched = s.fetched ++ [Request.capture] := by
  simp [shutdown, startCollection, toggleLight, takePhoto, Standalone.shutdown,
    Standalone.startCollection, Standalone.toggleLight, Standalone.takePhoto]

/-! ## Time sync -/

/-- C7: on both pages `syncTime` issues one `/set-time` request whose `time` is the
floor of the host's epoch milliseconds over 1000 and whose `tz` is the negation of the
host's minutes-behind-UTC value, hence positive exactly for zones ahead of UTC and
negative exactly for zones behind; at local time 2024-06-01 12:00:00 in a zone five
hours behind UTC the request carries 1717261200 and -300. -/
theorem time_sync (now : JSDate) (s : Page) :
    (∃ time tz : Int,
        (syncTime now s).fetched = s.fetched ++ [Request.setTime time tz]
          ∧ (Standalone.syncTime now s).fetched = s.fetched ++ [Request.setTime time tz]
          ∧ time * 1000 ≤ now.getTime ∧ now.getTime < (time + 1) * 1000
          ∧ tz = - now.getTimezoneOffset
          ∧ (0 < tz ↔ now.getTimezoneOffset < 0)
          ∧ (tz < 0 ↔ 0 < now.getTimezoneOffset))
      ∧ (syncTime (hostClockAtLocal 2024 6 1 12 0 0 300) s).fetched =
          s.fetched ++ [Request.setTime 1717261200 (-300)]
      ∧ (Standalone.syncTime (hostClockAtLocal 2024 6 1 12 0 0 300) s).fetched =
          s.fetched ++ [Request.setTime 1717261200 (-300)] := by
  refine ⟨⟨Int.fdiv now.getTime 1000, now.getTimezoneOffset * -1, rfl, rfl, ?_, ?_, ?_, ?_, ?_⟩,
    ?_, ?_⟩
  · rw [Int.fdiv_eq_ediv _ (by norm_num)]
    exact Int.ediv_mul_le _ (by norm_num)
  · rw [Int.fdiv_eq_ediv _ (by norm_num)]
    have := Int.lt_ediv_add_one_mul_self now.getTime (show (0 : Int) < 1000 by norm_num)
    exact this
  · ring
  · constructor <;> intro h <;> linarith
  · constructor <;> intro h <;> linarith
  · simp [syncTime, hostClockAtLocal, daysFromCivil]
  · simp [Standalone.syncTime, hostClockAtLocal, daysFromCivil]

/-! ## Listing render order -/

theorem sortInsert_dirsFirst (x : Entry) (ds fs : List Entry)
    (hd : ∀ d ∈ ds, d.isDir = true) (hf : ∀ f ∈ fs, f.isDir = false) :
    sortInsert dirsFirst x (ds ++ fs) = if x.isDir then x :: (ds ++ fs) else ds ++ x :: fs := by
  induction ds with
  | nil =>
    cases fs with
    | nil => simp [sortInsert]
    | cons f fs =>
      have hf1 : f.isDir = false := hf f (by simp)
      cases hx : x.isDir <;> simp [sortInsert, dirsFirst, hx, hf1]
  | cons d ds ih =>
    have hd1 : d.isDir = true := hd d (by simp)
    have ih1 := ih (fun e he => hd e (by simp [he]))
    cases hx : x.isDir
    · simp [sortInsert, dirsFirst, hx, hd1, ih1]
    · simp [sortInsert, dirsFirst, hx, hd1]

theorem sort_dirsFirst (files : List Entry) :
    sort dirsFirst files =
      files.filter (fun f => f.isDir) ++ files.filter (fun f => !f.isDir) := by
  induction files with
  | nil => rfl
  | cons x xs ih =>
    rw [sort, ih, sortInsert_dirsFirst x _ _ (by simp) (by simp)]
    cases hx : x.isDir <;> simp [hx]

theorem foldl_renderRow (files : List Entry) (s : Page) :
    files.foldl (fun s f => { s with tbody := s.tbody ++ [renderRow s.currentPath f] }) s =
      { s with tbody := s.tbody ++ files.map (renderRow s.currentPath) } := by
  induction files generalizing s with
  | nil => simp
  | cons f fs ih => simp [ih]

/-- C3: when a listing arrives, whatever the order of its entries, the table body
`loadDirectory` renders consists of the rows of the entries with `isDir = true`, in
their listing order, followed by the rows of the entries with `isDir = false`, in
their listing order. -/
theorem listing_render_order (files : List Entry) (s : Page) :
    (loadDirectoryThen { ok := true, json := some files } s).tbody =
      (files.filter (fun f => f.isDir)).map (renderRow s.currentPath)
        ++ (files.filter (fun f => !f.isDir)).map (renderRow s.currentPath) := by
  simp [loadDirectoryThen, foldl_renderRow, sort_dirsFirst]

/-! ## Bulk download -/

theorem downloadAllLoop_eq (dirPath : JSString) (files : List Entry) (index : Nat)
    (s : Page) (count : Nat) :
    downloadAllLoop dirPath files index (s, count) =
      ({ s with timers := s.timers ++ scheduled dirPath files index },
        count + (files.filter (fun f => !f.isDir)).length) := by
  induction files generalizing index s count with
  | nil => simp [downloadAllLoop, scheduled]
  | cons f fs ih =>
    cases hf : f.isDir
    · simp [downloadAllLoop, scheduled, hf, ih]
      omega
    · simp [downloadAllLoop, scheduled, hf, ih]

theorem scheduled_callbacks (dirPath : JSString) (files : List Entry) (index : Nat) :
    (scheduled dirPath files index).map (fun t => t.callback) =
      (files.filter (fun f => !f.isDir)).map (downloadCallback dirPath) := by
  induction files generalizing index with
  | nil => rfl
  | cons f fs ih => cases hf : f.isDir <;> simp [scheduled, hf, ih]

theorem scheduled_delay_ge (dirPath : JSString) (files : List Entry) (index : Nat) :
    ∀ t ∈ scheduled dirPath files index, index * 500 ≤ t.delay := by
  induction files generalizing index with
  | nil => simp [scheduled]
  | cons f fs ih =>
    intro t ht
    cases hf : f.isDir
    · simp only [scheduled, hf, Bool.false_eq_true, if_false, List.mem_cons] at ht
      rcases ht with rfl | ht
      · exact le_refl _
      · have := ih (index + 1) t ht
        omega
    · simp only [scheduled, hf, if_true] at ht
      have := ih (index + 1) t ht
      omega

theorem scheduled_paced (dirPath : JSString) (files : List Entry) (index : Nat) :
    (scheduled dirPath files index).Pairwise (fun a b => a.delay + 500 ≤ b.delay) := by
  induction files generalizing index with
  | nil => simp [scheduled]
  | cons f fs ih =>
    cases hf : f.isDir
    · simp only [scheduled, hf, Bool.false_eq_true, if_false, List.pairwise_cons]
      refine ⟨?_, ih (index + 1)⟩
      intro t ht
      have := scheduled_delay_ge dirPath fs (index + 1) t ht
      show index * 500 + 500 ≤ t.delay
      omega
    · simpa [scheduled, hf] using ih (index + 1)

/-- C4: for a listing that `downloadAll(dirPath)` receives, the timers it registers
are as many as the listing has non-directory entries, their downloads are those of
the non-directory entries in listing order (none for a directory), and the delay of
each is at least 500 ms more than the delay of every earlier one. -/
theorem bulk_download_scheduling (dirPath : JSString) (files : List Entry) (s : Page) :
    ∃ new : List Timer,
      (downloadAllThen dirPath files s).timers = s.timers ++ new
        ∧ new.length = (files.filter (fun f => !f.isDir)).length
        ∧ new.map (fun t => t.callback) =
            (files.filter (fun f => !f.isDir)).map (downloadCallback dirPath)
        ∧ new.Pairwise (fun a b => a.delay + 500 ≤ b.delay) := by
  refine ⟨scheduled dirPath files 0, ?_, ?_, scheduled_callbacks dirPath files 0,
    scheduled_paced dirPath files 0⟩
  · simp only [downloadAllThen, downloadAllLoop_eq]
    split <;> rfl
  · have h := congrArg List.length (scheduled_callbacks dirPath files 0)
    simpa using h

/-! ## Composition of path resolution -/

theorem collapseSeparators_cons (a : Char) (l : JSString) :
    collapseSeparators (a :: l) =
      if a = '/' ∧ l.head? = some '/' then collapseSeparators l
      else a :: collapseSeparators l := by
  cases l with
  | nil => simp [collapseSeparators]
  | cons b rest => simp [collapseSeparators]

theorem collapseSeparators_double (ys g : JSString) :
    collapseSeparators (ys ++ '/' :: '/' :: g) = collapseSeparators (ys ++ '/' :: g) := by
  induction ys with
  | nil => simp [collapseSeparators]
  | cons a ys ih =>
    have hh : (ys ++ '/' :: '/' :: g).head? = (ys ++ '/' :: g).head? := by
      cases ys <;> simp
    simp only [List.cons_append, collapseSeparators_cons, hh, ih]

/-- C9: for every parent path `p`, child `c` and grandchild `g`, the full path of `g`
under the full path of `c` under `p` and the full path of the composite child
`c/g` under `p` are the same once runs of `/` are collapsed to one. -/
theorem resolution_composes (p c g : JSString) :
    collapseSeparators (fullPath (fullPath p c) g) =
      collapseSeparators (fullPath p (c ++ ['/'] ++ g)) := by
  by_cases h : endsWith (fullPath p c) '/' = true
  · obtain ⟨ys, hys⟩ := (endsWith_iff_suffix _ _).mp h
    have h1 : fullPath (fullPath p c) g = ys ++ '/' :: g := by
      rw [fullPath, h, ← hys]; simp
    have h2 : fullPath p (c ++ ['/'] ++ g) = ys ++ '/' :: '/' :: g := by
      have : fullPath p (c ++ ['/'] ++ g) = fullPath p c ++ '/' :: g := by
        simp [fullPath]
      rw [this, ← hys]; simp
    rw [h1, h2, collapseSeparators_double]
  · have h1 : fullPath (fullPath p c) g = fullPath p (c ++ ['/'] ++ g) := by
      have h' : endsWith (fullPath p c) '/' = false := by simpa using h
      have : fullPath (fullPath p c) g = fullPath p c ++ '/' :: g := by
        rw [fullPath, h']; simp
      rw [this]; simp [fullPath]
    rw [h1]

/-! ## Going up -/

theorem substring_zero (s : JSString) (k : Int) : substring s 0 k = s.take k.toNat := by
  unfold substring
  have h0 : max (0 : Int) (min 0 (s.length : Int)) = 0 := by
    have : (0 : Int) ≤ s.length := Int.ofNat_nonneg _
    simp [this]
  simp only [h0]
  have hb : (0 : Int) ≤ max 0 (min k (s.length : Int)) := le_max_left _ _
  rw [min_eq_left hb, max_eq_right hb]
  simp only [Int.toNat_zero, List.drop_zero, Nat.sub_zero]
  by_cases hk : k ≤ (s.length : Int)
  · rw [min_eq_left hk]
    by_cases hk0 : 0 ≤ k
    · rw [max_eq_right hk0]
    · have hk1 : k ≤ 0 := by omega
      rw [max_eq_left hk1]
      have : k.toNat = 0 := by omega
      simp [this]
  · have hk1 : (s.length : Int) ≤ k := by omega
    rw [min_eq_right hk1, max_eq_right (Int.ofNat_nonneg _)]
    have : s.length ≤ k.toNat := by omega
    simp [List.take_of_length_le this]

theorem lastIndexOf_lt (s : JSString) (c : Char) : lastIndexOf s c < s.length := by
  induction s with
  | nil => simp [lastIndexOf]
  | cons x xs ih =>
    simp only [lastIndexOf, List.length_cons, Nat.cast_add, Nat.cast_one]
    split
    · omega
    · split <;> omega

theorem lastIndexOf_nonneg (s : JSString) (c : Char) (h : c ∈ s) : 0 ≤ lastIndexOf s c := by
  induction s with
  | nil => simp at h
  | cons x xs ih =>
    simp only [lastIndexOf]
    split
    · omega
    · rename_i hneg
      have hx : x = c := by
        rcases List.mem_cons.mp h with rfl | hm
        · rfl
        · exact absurd (ih hm) hneg
      simp [hx]

theorem lastIndexOf_of_not_mem (s : JSString) (c : Char) (h : c ∉ s) :
    lastIndexOf s c = -1 := by
  induction s with
  | nil => rfl
  | cons x xs ih =>
    have hx : ¬ x = c := fun e => h (by simp [e])
    have hxs : c ∉ xs := fun e => h (by simp [e])
    simp [lastIndexOf, ih hxs, hx]

theorem lastIndexOf_append (xs ys : JSString) (c : Char) (h : c ∉ ys) :
    lastIndexOf (xs ++ c :: ys) c = xs.length := by
  induction xs with
  | nil => simp [lastIndexOf, lastIndexOf_of_not_mem ys c h]
  | cons x xs ih =>
    have h0 : (0 : Int) ≤ xs.length := Int.ofNat_nonneg _
    show (if 0 ≤ lastIndexOf (xs ++ c :: ys) c then lastIndexOf (xs ++ c :: ys) c + 1
          else if x = c then 0 else -1) = ((xs.length + 1 : Nat) : Int)
    rw [ih, if_pos h0]
    simp

theorem goUp_currentPath (s : Page) : (goUp s).currentPath = upPath s.currentPath := by
  unfold goUp upPath
  by_cases h : s.currentPath = ['/'] ∨ s.currentPath = []
  · simp [h]
  · simp only [h, if_false]
    by_cases h2 : endsWith s.currentPath '/' = true ∧ s.currentPath.length > 1
    · simp [h2, loadDirectory]
    · simp [h2, loadDirectory]

theorem goUp_fetched (s : Page) (h : ¬ (s.currentPath = ['/'] ∨ s.currentPath = [])) :
    (goUp s).fetched = s.fetched ++ [Request.list (upPath s.currentPath)] := by
  unfold goUp upPath
  simp only [h, if_false]
  by_cases h2 : endsWith s.currentPath '/' = true ∧ s.currentPath.length > 1
  · simp [h2, loadDirectory]
  · simp [h2, loadDirectory]

/-- Going up from an absolute path other than the root: the target is a prefix, begins
with a separator and is strictly shorter. -/
theorem upPath_spec (p : JSString) (h1 : ['/'] <+: p) (h2 : p ≠ ['/']) :
    upPath p <+: p ∧ ['/'] <+: upPath p ∧ (upPath p).length < p.length := by
  obtain ⟨t, rfl⟩ := h1
  have ht : t ≠ [] := fun e => h2 (by simp [e])
  have hlen : 2 ≤ (['/'] ++ t).length := by
    cases t with
    | nil => exact absurd rfl ht
    | cons a t => simp
  have hne : ¬ (['/'] ++ t = ['/'] ∨ ['/'] ++ t = []) := by
    simp [ht]
  -- the path after the trailing separator is stripped
  obtain ⟨q, hq, hqp, hq1, hqlen⟩ : ∃ q : JSString,
      q = (if endsWith (['/'] ++ t) '/' ∧ (['/'] ++ t).length > 1
            then substring (['/'] ++ t) 0 ((['/'] ++ t).length - 1) else ['/'] ++ t)
        ∧ q <+: ['/'] ++ t ∧ ['/'] <+: q ∧ q.length ≤ (['/'] ++ t).length := by
    refine ⟨_, rfl, ?_⟩
    split
    · rw [substring_zero]
      refine ⟨List.take_prefix _ _, ?_, ?_⟩
      · have : (((['/'] ++ t).length : Int) - 1).toNat = t.length := by
          simp
        rw [this]
        cases t with
        | nil => exact absurd rfl ht
        | cons a t => exact ⟨List.take t.length (a :: t), by simp⟩
      · simp [List.length_take]
    · exact ⟨List.prefix_refl _, ⟨t, rfl⟩, le_refl _⟩
  have hmem : '/' ∈ q := by
    obtain ⟨u, rfl⟩ := hq1
    simp
  have hli0 := lastIndexOf_nonneg q '/' hmem
  have hli1 := lastIndexOf_lt q '/'
  have hup : upPath (['/'] ++ t) =
      if q.take (lastIndexOf q '/').toNat = [] then ['/']
      else q.take (lastIndexOf q '/').toNat := by
    unfold upPath
    simp only [hne, if_false]
    rw [← hq, substring_zero]
  rw [hup]
  by_cases hempty : q.take (lastIndexOf q '/').toNat = []
  · simp only [hempty, if_true]
    refine ⟨⟨t, rfl⟩, List.prefix_refl _, ?_⟩
    simpa using hlen
  · simp only [hempty, if_false]
    refine ⟨(List.take_prefix _ _).trans hqp, ?_, ?_⟩
    · obtain ⟨u, rfl⟩ := hq1
      have hpos : 0 < (lastIndexOf (['/'] ++ u) '/').toNat := by
        rcases Nat.eq_zero_or_pos (lastIndexOf (['/'] ++ u) '/').toNat with h0 | h0
        · rw [h0] at hempty
          simp at hempty
        · exact h0
      obtain ⟨k, hk⟩ := Nat.exists_eq_succ_of_ne_zero (Nat.pos_iff_ne_zero.mp hpos)
      rw [hk]
      exact ⟨List.take k u, by simp⟩
    · rw [List.length_take]
      have : (lastIndexOf q '/').toNat < q.length := by omega
      omega

theorem goUp_iterate_currentPath (k : Nat) (s : Page) :
    (goUp^[k] s).currentPath = upPath^[k] s.currentPath := by
  induction k generalizing s with
  | zero => rfl
  | succ k ih => rw [Function.iterate_succ_apply, Function.iterate_succ_apply, ih, goUp_currentPath]

theorem upPath_reaches_root (n : Nat) :
    ∀ p : JSString, p.length ≤ n → ['/'] <+: p → ∃ k, upPath^[k] p = ['/'] := by
  induction n with
  | zero =>
    intro p hp h1
    obtain ⟨t, rfl⟩ := h1
    simp at hp
  | succ n ih =>
    intro p hp h1
    by_cases h2 : p = ['/']
    · exact ⟨0, h2⟩
    · obtain ⟨-, hb, hc⟩ := upPath_spec p h1 h2
      obtain ⟨k, hk⟩ := ih (upPath p) (by omega) hb
      exact ⟨k + 1, by rw [Function.iterate_succ_apply]; exact hk⟩

/-- C2: from every current path that begins with `/` and is not `/` itself, `goUp`
navigates (sets the current path and requests the listing) to a path that is a prefix
of it and begins with `/`, and some number of repetitions of `goUp` ends at `/`. -/
theorem goUp_ascends_to_root (s : Page) (h1 : ['/'] <+: s.currentPath)
    (h2 : s.currentPath ≠ ['/']) :
    (goUp s).currentPath <+: s.currentPath
      ∧ ['/'] <+: (goUp s).currentPath
      ∧ (goUp s).fetched = s.fetched ++ [Request.list (goUp s).currentPath]
      ∧ ∃ k, (goUp^[k] s).currentPath = ['/'] := by
  have hspec := upPath_spec s.currentPath h1 h2
  have hne : ¬ (s.currentPath = ['/'] ∨ s.currentPath = []) := by
    rintro (h | h)
    · exact h2 h
    · obtain ⟨t, ht⟩ := h1
      rw [h] at ht
      simp at ht
  refine ⟨?_, ?_, ?_, ?_⟩
  · rw [goUp_currentPath]; exact hspec.1
  · rw [goUp_currentPath]; exact hspec.2.1
  · rw [goUp_currentPath]; exact goUp_fetched s hne
  · obtain ⟨k, hk⟩ := upPath_reaches_root s.currentPath.length s.currentPath (le_refl _) h1
    exact ⟨k, by rw [goUp_iterate_currentPath]; exact hk⟩

/-- Witness of C2 at the current path `/2024-01-01/images/`, from which `goUp` navigates
to `/2024-01-01`. -/
theorem goUp_ascends_to_root_witness :
    (goUp { initialPage with currentPath := "/2024-01-01/images/".toList }).currentPath
        = "/2024-01-01".toList
      ∧ ((goUp { initialPage with currentPath := "/2024-01-01/images/".toList }).currentPath
          <+: "/2024-01-01/images/".toList
        ∧ ['/'] <+: (goUp { initialPage with
                              currentPath := "/2024-01-01/images/".toList }).currentPath
        ∧ (goUp { initialPage with currentPath := "/2024-01-01/images/".toList }).fetched
            = [] ++ [Request.list (goUp { initialPage with
                            currentPath := "/2024-01-01/images/".toList }).currentPath]
        ∧ ∃ k, (goUp^[k] { initialPage with
                  currentPath := "/2024-01-01/images/".toList }).currentPath = ['/']) :=
  ⟨by decide,
   goUp_ascends_to_root { initialPage with currentPath := "/2024-01-01/images/".toList }
     (by decide) (by decide)⟩

/-! ## The navigation state -/

theorem ofSegments_nil : ofSegments [] = ['/'] := rfl

theorem ofSegments_snoc (segs : List JSString) (n : JSString) :
    ofSegments (segs ++ [n]) = (if segs = [] then [] else ofSegments segs) ++ '/' :: n := by
  unfold ofSegments
  by_cases h : segs = []
  · simp [h]
  · simp [h]

theorem canonical_root : Canonical ['/'] :=
  ⟨[], by simp, rfl⟩

theorem getLast?_append_cons_segment (xs n : JSString) (hn : IsSegment n) :
    (xs ++ '/' :: n).getLast? ≠ some '/' := by
  obtain ⟨hne, hmem⟩ := hn
  obtain ⟨ys, a, rfl⟩ : ∃ ys a, n = ys ++ [a] := by
    rcases List.eq_nil_or_concat n with h | ⟨ys, a, h⟩
    · exact absurd h hne
    · exact ⟨ys, a, by simpa using h⟩
  have : xs ++ '/' :: (ys ++ [a]) = (xs ++ '/' :: ys) ++ [a] := by simp
  rw [this, List.getLast?_concat]
  intro h
  apply hmem
  simp only [Option.some.injEq] at h
  simp [h]

/-- A canonical path is the root or ends in a segment. -/
theorem canonical_cases (p : JSString) (h : Canonical p) :
    p = ['/'] ∨ ∃ xs n, IsSegment n ∧ p = xs ++ '/' :: n
      ∧ (xs = [] ∨ Canonical xs) := by
  obtain ⟨segs, hs, rfl⟩ := h
  rcases List.eq_nil_or_concat segs with h | ⟨init, n, h⟩
  · left; rw [h]; rfl
  · right
    have h' : segs = init ++ [n] := by simpa using h
    subst h'
    have hn : IsSegment n := hs n (by simp)
    have hinit : ∀ m ∈ init, IsSegment m := fun m hm => hs m (by simp [hm])
    refine ⟨if init = [] then [] else ofSegments init, n, hn, ofSegments_snoc init n, ?_⟩
    by_cases hi : init = []
    · left; simp [hi]
    · right; simp only [hi, if_false]; exact ⟨init, hinit, rfl⟩

theorem ofSegments_absolute (segs : List JSString) : ['/'] <+: ofSegments segs := by
  cases segs with
  | nil => exact List.prefix_refl _
  | cons m rest => exact ⟨m ++ (rest.map (fun n => '/' :: n)).flatten, by simp [ofSegments]⟩

theorem canonical_absolute (p : JSString) (h : Canonical p) : AbsolutePath p := by
  refine ⟨?_, ?_⟩
  · obtain ⟨segs, -, rfl⟩ := h
    exact ofSegments_absolute segs
  · rcases canonical_cases p h with h0 | ⟨xs, n, hn, rfl, -⟩
    · exact Or.inl h0
    · right
      intro hsuf
      have := (endsWith_iff_suffix _ '/').mpr hsuf
      unfold endsWith at this
      exact getLast?_append_cons_segment xs n hn (by simpa using this)

theorem canonical_snoc (xs n : JSString) (hn : IsSegment n) (hxs : xs = [] ∨ Canonical xs)
    (hroot : xs ≠ ['/']) : Canonical (xs ++ '/' :: n) := by
  rcases hxs with rfl | ⟨segs, hs, rfl⟩
  · exact ⟨[n], by simpa using hn, by simp [ofSegments]⟩
  · have hne : segs ≠ [] := fun e => hroot (by rw [e]; rfl)
    refine ⟨segs ++ [n], ?_, ?_⟩
    · intro m hm
      rcases List.mem_append.mp hm with h | h
      · exact hs m h
      · simp only [List.mem_singleton] at h; rw [h]; exact hn
    · rw [ofSegments_snoc]; simp [hne]

theorem fullPath_canonical (p n : JSString) (hp : Canonical p) (hn : IsSegment n) :
    Canonical (fullPath p n) := by
  rcases canonical_cases p hp with h0 | ⟨xs, m, hm, rfl, hxs⟩
  · subst h0
    have : fullPath ['/'] n = [] ++ '/' :: n := by
      simp [fullPath, endsWith]
    rw [this]
    exact canonical_snoc [] n hn (Or.inl rfl) (by simp)
  · have hends : endsWith (xs ++ '/' :: m) '/' = false := by
      have := getLast?_append_cons_segment xs m hm
      unfold endsWith
      simpa using this
    have : fullPath (xs ++ '/' :: m) n = (xs ++ '/' :: m) ++ '/' :: n := by
      simp [fullPath, hends]
    rw [this]
    refine canonical_snoc _ n hn (Or.inr hp) ?_
    intro h
    have hlen := congrArg List.length h
    have : m ≠ [] := hm.1
    cases m with
    | nil => exact this rfl
    | cons a m => simp at hlen; omega

theorem upPath_canonical (p : JSString) (hp : Canonical p) : Canonical (upPath p) := by
  rcases canonical_cases p hp with h0 | ⟨xs, m, hm, rfl, hxs⟩
  · subst h0
    simpa [upPath] using canonical_root
  · have hends : endsWith (xs ++ '/' :: m) '/' = false := by
      have := getLast?_append_cons_segment xs m hm
      unfold endsWith
      simpa using this
    have hm0 : m ≠ [] := hm.1
    have hne : ¬ (xs ++ '/' :: m = ['/'] ∨ xs ++ '/' :: m = []) := by
      rintro (h | h)
      · have hlen := congrArg List.length h
        cases m with
        | nil => exact hm0 rfl
        | cons a m => simp at hlen; omega
      · simp at h
    have hup : upPath (xs ++ '/' :: m) = if xs = [] then ['/'] else xs := by
      unfold upPath
      simp only [hne, if_false, hends, Bool.false_eq_true, false_and]
      rw [substring_zero, lastIndexOf_append xs m '/' hm.2]
      simp
    rw [hup]
    rcases hxs with rfl | hc
    · simpa using canonical_root
    · by_cases hx : xs = []
      · simpa [hx] using canonical_root
      · simpa [hx] using hc

theorem goUp_tbody (s : Page) : (goUp s).tbody = s.tbody := by
  unfold goUp
  by_cases h : s.currentPath = ['/'] ∨ s.currentPath = []
  · simp [h]
  · simp only [h, if_false]
    by_cases h2 : endsWith s.currentPath '/' = true ∧ s.currentPath.length > 1
    · simp [h2, loadDirectory]
    · simp [h2, loadDirectory]

theorem loadDirectoryThen_ok (files : List Entry) (s : Page) :
    loadDirectoryThen { ok := true, json := some files } s =
      { s with tbody := (sort dirsFirst files).map (renderRow s.currentPath) } := by
  simp [loadDirectoryThen, foldl_renderRow]

theorem mem_sort_dirsFirst (files : List Entry) (f : Entry) (h : f ∈ sort dirsFirst files) :
    f ∈ files := by
  rw [sort_dirsFirst] at h
  rcases List.mem_append.mp h with h | h
  · exact (List.mem_filter.mp h).1
  · exact (List.mem_filter.mp h).1

theorem plainName_slash : PlainName ['/'] := by decide

theorem plainName_append (a b : JSString) (ha : PlainName a) (hb : PlainName b) :
    PlainName (a ++ b) := by
  intro c hc
  rcases List.mem_append.mp hc with h | h
  · exact ha c h
  · exact hb c h

theorem plainName_of_isPrefix (a b : JSString) (h : a <+: b) (hb : PlainName b) :
    PlainName a :=
  fun c hc => hb c (h.subset hc)

theorem fullPath_plain (p n : JSString) (hp : PlainName p) (hn : PlainName n) :
    PlainName (fullPath p n) := by
  unfold fullPath
  apply plainName_append _ _ _ hn
  split
  · exact plainName_append _ _ hp plainName_slash
  · exact hp

theorem upPath_plain (p : JSString) (hc : Canonical p) (hp : PlainName p) :
    PlainName (upPath p) := by
  by_cases h : p = ['/']
  · subst h
    simpa [upPath] using hp
  · exact plainName_of_isPrefix _ _ (upPath_spec p (canonical_absolute p hc).1 h).1 hp

/-- A plain text is the value of the literal it is written into. -/
theorem literalValue_plain (t : JSString) (h : PlainName t) :
    literalValue LiteralState.chars t = some t := by
  induction t with
  | nil => rfl
  | cons c rest ih =>
    have hc := (h c (by simp)).2
    have hrest : PlainName rest := fun d hd => h d (by simp [hd])
    have h92 : ¬ c.toNat = 92 := by
      intro e
      simp [literalSpecial, e] at hc
    simp [literalValue, h92, hc, ih hrest]

theorem markupAsWritten_of_plain (rows : List Row)
    (h : ∀ r ∈ rows, ∀ t ∈ r.texts, PlainName t) : markupAsWritten rows = true := by
  unfold markupAsWritten
  simp only [List.all_eq_true, Bool.not_eq_true', List.any_eq_false]
  intro r hr t ht c hc
  simpa using (h r hr t ht c hc).1

theorem renderRow_texts_plain (p : JSString) (f : Entry) (hp : PlainName p)
    (hf : PlainName f.name) : ∀ t ∈ (renderRow p f).texts, PlainName t := by
  have hfull := fullPath_plain p f.name hp hf
  intro t ht
  cases hd : f.isDir
  · simp only [renderRow, hd, Row.texts, Button.text, Bool.false_eq_true, if_false,
      List.map_cons, List.map_nil, List.cons_append, List.nil_append, List.mem_cons,
      List.mem_singleton, List.not_mem_nil, or_false] at ht
    rcases ht with rfl | rfl | rfl
    · exact hfull
    · exact hf
    · exact hfull
  · simp only [renderRow, hd, Row.texts, Button.text, if_true,
      List.map_cons, List.map_nil, List.cons_append, List.nil_append, List.mem_cons,
      List.mem_singleton, List.not_mem_nil, or_false] at ht
    rcases ht with rfl | rfl | rfl | rfl
    · exact hf
    · exact hfull
    · exact hfull
    · exact hfull

theorem galleryInv_loadDirectory (path : JSString) (s : Page) (h : GalleryInv s)
    (hc : Canonical path) (hp : PlainName path) : GalleryInv (loadDirectory path s) :=
  ⟨hc, hp, h.2.2⟩

theorem galleryInv_goUp (s : Page) (h : GalleryInv s) : GalleryInv (goUp s) := by
  refine ⟨?_, ?_, ?_⟩
  · show Canonical (goUp s).currentPath
    rw [goUp_currentPath]; exact upPath_canonical _ h.1
  · show PlainName (goUp s).currentPath
    rw [goUp_currentPath]; exact upPath_plain _ h.1 h.2.1
  · show ∀ r ∈ (goUp s).tbody, _
    rw [goUp_tbody]; exact h.2.2

theorem galleryInv_loadDirectoryThen (r : ListResponse) (s : Page) (h : GalleryInv s)
    (hr : (Action.listing r).PlainSegmentNames) : GalleryInv (loadDirectoryThen r s) := by
  obtain ⟨ok, json⟩ := r
  cases ok with
  | false => simpa [loadDirectoryThen] using h
  | true =>
    cases json with
    | none => simpa [loadDirectoryThen] using h
    | some files =>
      rw [loadDirectoryThen_ok]
      refine ⟨h.1, h.2.1, ?_⟩
      intro row hrow
      simp only [List.mem_map] at hrow
      obtain ⟨f, hf, rfl⟩ := hrow
      have hfiles := mem_sort_dirsFirst files f hf
      obtain ⟨hplain, hseg⟩ := hr f (by simpa using hfiles) rfl
      refine ⟨renderRow_texts_plain _ f h.2.1 hplain, ?_⟩
      intro path hbtn
      cases hd : f.isDir with
      | false => simp [renderRow, hd] at hbtn
      | true =>
        simp only [renderRow, hd, if_true, List.mem_cons, Button.openDir.injEq,
          List.mem_singleton, reduceCtorEq, or_false, List.not_mem_nil] at hbtn
        rw [hbtn]
        exact fullPath_canonical _ _ h.1 (hseg hd)

theorem galleryInv_downloadAllThen (dirPath : JSString) (files : List Entry) (s : Page)
    (h : GalleryInv s) : GalleryInv (downloadAllThen dirPath files s) := by
  unfold downloadAllThen
  simp only [downloadAllLoop_eq]
  split <;> exact h

theorem galleryInv_press (s : Page) (r : Row) (b : Button) (confirmed : Bool)
    (h : GalleryInv s) (hr : r ∈ s.tbody) (hb : b ∈ r.actionsCell) :
    ∃ t, press b confirmed s = some t ∧ GalleryInv t := by
  have htext : PlainName b.text :=
    (h.2.2 r hr).1 b.text (by
      simp only [Row.texts, List.mem_append, List.mem_map]
      exact Or.inr ⟨b, hb, rfl⟩)
  cases b with
  | openDir path =>
    refine ⟨loadDirectory path s, ?_, ?_⟩
    · simp [press, literalValue_plain path htext]
    · exact galleryInv_loadDirectory _ _ h ((h.2.2 r hr).2 path hb) htext
  | downAll path =>
    refine ⟨downloadAll path confirmed s, ?_, ?_⟩
    · simp [press, literalValue_plain path htext]
    · unfold downloadAll
      split <;> exact h
  | del path isDir =>
    refine ⟨deleteItem path isDir confirmed s, ?_, ?_⟩
    · simp [press, literalValue_plain path htext]
    · unfold deleteItem
      split <;> exact h

theorem galleryInv_step (s : Page) (a : Action) (h : GalleryInv s)
    (ha : a.PlainSegmentNames) : ∃ t, step s a = some t ∧ GalleryInv t := by
  cases a with
  | refresh => exact ⟨_, rfl, galleryInv_loadDirectory _ _ h h.1 h.2.1⟩
  | back => exact ⟨_, rfl, galleryInv_goUp s h⟩
  | click row button confirmed =>
    simp only [step]
    cases hr : s.tbody[row]? with
    | none => exact ⟨s, rfl, h⟩
    | some r =>
      simp only
      cases hb : r.actionsCell[button]? with
      | none => exact ⟨s, rfl, h⟩
      | some b =>
        simp only
        rw [if_pos (markupAsWritten_of_plain s.tbody (fun r hr => (h.2.2 r hr).1))]
        exact galleryInv_press s r b confirmed h (List.getElem?_mem hr) (List.getElem?_mem hb)
  | listing r =>
    have hinv := galleryInv_loadDirectoryThen r s h ha
    refine ⟨loadDirectoryThen r s, ?_, hinv⟩
    simp only [step]
    rw [if_pos (markupAsWritten_of_plain _ (fun r hr => (hinv.2.2 r hr).1))]
  | deleted ok =>
    cases ok with
    | false => exact ⟨_, rfl, h⟩
    | true => exact ⟨_, rfl, galleryInv_loadDirectory _ _ h h.1 h.2.1⟩
  | downloadListing dirPath files =>
    exact ⟨_, rfl, galleryInv_downloadAllThen dirPath files s h⟩

theorem galleryInv_run (actions : List Action) (s : Page) (h : GalleryInv s)
    (ha : ∀ a ∈ actions, a.PlainSegmentNames) :
    ∃ t, run s actions = some t ∧ GalleryInv t := by
  induction actions generalizing s with
  | nil => exact ⟨s, rfl, h⟩
  | cons a rest ih =>
    obtain ⟨t, ht, hinv⟩ := galleryInv_step s a h (ha a (by simp))
    obtain ⟨u, hu, hinv2⟩ := ih t hinv (fun b hb => ha b (by simp [hb]))
    exact ⟨u, by simp only [run, ht]; exact hu, hinv2⟩

theorem galleryInv_onload : GalleryInv (windowOnload initialPage) :=
  ⟨canonical_root, plainName_slash,
    by simp [windowOnload, loadDirectory, fetchStatus, initialPage]⟩

/-- C10, as the claim states it, fails: the directory name `b\x2f` is a path segment
(not empty, no separator); after the page load, the listing of `/` with that one
directory and `Open` on its row, the handler reads the literal written, `/b\x2f`, as
`/b/`, so the current path is `/b/`, which ends in a separator. -/
theorem escaped_name_breaks_invariant :
    IsSegment ['b', Char.ofNat 92, 'x', '2', 'f']
      ∧ ∃ s, run (windowOnload initialPage)
          [Action.listing { ok := true,
                            json := some [{ name := ['b', Char.ofNat 92, 'x', '2', 'f'],
                                            size := 0, isDir := true }] },
           Action.click 0 0 false] = some s
        ∧ s.currentPath = ['/', 'b', '/']
        ∧ s.fetched = [Request.status, Request.list ['/'], Request.list ['/', 'b', '/']]
        ∧ ¬ AbsolutePath s.currentPath :=
  ⟨by decide, _, rfl, by decide, by decide, by decide⟩

/-- C10, amended: when every listing that `loadDirectory` receives has only names
without a character that HTML or a quoted literal reads specially, and names each of
its directories by a non-empty name without a separator, then every sequence of clicks
on `Refresh`, `Back` and the buttons of the rendered rows (`Open`, `Down All`, `Del`)
and of responses of the device, applied after the page load, leads to a page whose
current path begins with `/` and is exactly `/` or does not end in a separator. -/
theorem navigation_invariant (actions : List Action)
    (h : ∀ a ∈ actions, a.PlainSegmentNames) :
    ∃ s, run (windowOnload initialPage) actions = some s ∧ AbsolutePath s.currentPath := by
  obtain ⟨s, hs, hinv⟩ := galleryInv_run actions _ galleryInv_onload h
  exact ⟨s, hs, canonical_absolute _ hinv.1⟩

/-- Witness of C10 (amended) on a run that opens two directories, deletes, re-lists
and goes back, ending at `/2024-01-01`. -/
theorem navigation_invariant_witness :
    (run (windowOnload initialPage)
        [Action.listing { ok := true,
                          json := some [{ name := "2024-01-01".toList, size := 0, isDir := true },
                                        { name := "notes.txt".toList, size := 7, isDir := false }] },
         Action.click 0 0 false,
         Action.listing { ok := true,
                          json := some [{ name := "images".toList, size := 0, isDir := true }] },
         Action.click 0 0 false,
         Action.click 0 2 true,
         Action.deleted true,
         Action.back]).map (fun s => s.currentPath) = some "/2024-01-01".toList
      ∧ ∃ s, run (windowOnload initialPage)
        [Action.listing { ok := true,
                          json := some [{ name := "2024-01-01".toList, size := 0, isDir := true },
                                        { name := "notes.txt".toList, size := 7, isDir := false }] },
         Action.click 0 0 false,
         Action.listing { ok := true,
                          json := some [{ name := "images".toList, size := 0, isDir := true }] },
         Action.click 0 0 false,
         Action.click 0 2 true,
         Action.deleted true,
         Action.back] = some s ∧ AbsolutePath s.currentPath :=
  ⟨by decide, navigation_invariant _ (by decide)⟩

end KiloCam
